import Mathlib

/-!
Shallow embedding of the composite-signal classes of pcdsdevices/signal.py:
AggregateSignal (cached multi-source aggregation), AvgSignal (rolling
average over a circular buffer), _OptionalEpicsSignal (local-fallback proxy
for a possibly absent remote channel) and UnitConversionDerivedSignal
(bidirectional unit conversion with a user offset).

Source signals are identified by natural numbers; signal values are
integers for the aggregate classes and rationals where means and unit
conversions are computed.  Python dictionaries are modelled as association
lists updated in place, numpy NaN sentinels as `Option` values, and raised
exceptions as `Except.error` results.
-/

namespace Pcds

/-! ### AggregateSignal -/

/-- State of an AggregateSignal: the bound source signals, the cache
mapping each source to its last known value (a Python dict modelled as an
association list), and the current readback (initially None). -/
structure AggregateSignal where
  sub_signals : List ℕ
  cache : List (ℕ × ℤ)
  readback : Option ℤ
  deriving Repr, DecidableEq

/-- Python dict assignment: replace the entry for key k when present,
otherwise append a new entry. -/
def dictSet (cache : List (ℕ × ℤ)) (k : ℕ) (v : ℤ) : List (ℕ × ℤ) :=
  if k ∈ cache.map Prod.fst then
    cache.map (fun p => if p.1 = k then (k, v) else p)
  else
    cache ++ [(k, v)]

/-- Python dict lookup (first entry with the key; keys stay unique). -/
def dictGet (cache : List (ℕ × ℤ)) (k : ℕ) : Option ℤ :=
  match cache with
  | [] => none
  | p :: rest => if p.1 = k then some p.2 else dictGet rest k

/-- AggregateSignal.__init__: empty cache, no readback yet; the subclass
binds the sources. -/
def mkAggregateSignal (subs : List ℕ) : AggregateSignal :=
  { sub_signals := subs, cache := [], readback := none }

/-- AggregateSignal._insert_value: update one cache entry, then
_update_state recomputes the readback from the subclass calculation. -/
def insert_value (calc_readback : List (ℕ × ℤ) → ℤ) (sig : ℕ) (v : ℤ)
    (st : AggregateSignal) : AggregateSignal :=
  let cache := dictSet st.cache sig v
  { st with cache := cache, readback := some (calc_readback cache) }

/-- AggregateSignal.get: synchronously read every source (env gives each
source's current remote value), refresh the cache and recompute. -/
def AggregateSignal.get (calc_readback : List (ℕ × ℤ) → ℤ) (env : ℕ → ℤ)
    (st : AggregateSignal) : AggregateSignal :=
  let cache := st.sub_signals.foldl (fun c s => dictSet c s (env s)) st.cache
  { st with cache := cache, readback := some (calc_readback cache) }

/-- AggregateSignal.put: always raises NotImplementedError. -/
def AggregateSignal.put (_value : ℤ) (_st : AggregateSignal) :
    Except String AggregateSignal :=
  Except.error "put should be overriden in the subclass"

/-- AggregateSignal._run_sub_value: insert the pushed value, then emit a
VALUE event (value, old_value) to the signal's own subscribers exactly when
the recomputed readback differs from the old one, or unconditionally when
_update_only_on_change is false.  The second component is the emitted
event, if any. -/
def run_sub_value (calc_readback : List (ℕ × ℤ) → ℤ)
    (update_only_on_change : Bool) (sig : ℕ) (v : ℤ) (st : AggregateSignal) :
    AggregateSignal × Option (Option ℤ × Option ℤ) :=
  let old_value := st.readback
  let st' := insert_value calc_readback sig v st
  let value := st'.readback
  if value ≠ old_value ∨ update_only_on_change = false then
    (st', some (value, old_value))
  else
    (st', none)

/-- Apply a sequence of push updates (source, value) in order. -/
def applyPushes (calc_readback : List (ℕ × ℤ) → ℤ) (ps : List (ℕ × ℤ))
    (st : AggregateSignal) : AggregateSignal :=
  ps.foldl (fun s p => insert_value calc_readback p.1 p.2 s) st

/-- Latest value pushed for source s in the sequence ps, if any. -/
def lastPush (ps : List (ℕ × ℤ)) (s : ℕ) : Option ℤ :=
  match ps with
  | [] => none
  | p :: rest =>
    match lastPush rest s with
    | some v => some v
    | none => if p.1 = s then some p.2 else none

/-! ### Association-list lemmas for the cache -/

theorem dictGet_none_of_not_mem (c : List (ℕ × ℤ)) (s : ℕ)
    (hs : s ∉ c.map Prod.fst) : dictGet c s = none := by
  induction c with
  | nil => rfl
  | cons p rest ih =>
    simp only [List.map_cons, List.mem_cons, not_or] at hs
    have hp : ¬ p.1 = s := fun h => hs.1 h.symm
    simp [dictGet, hp, ih hs.2]

theorem dictGet_append_of_none (c d : List (ℕ × ℤ)) (s : ℕ)
    (h : dictGet c s = none) : dictGet (c ++ d) s = dictGet d s := by
  induction c with
  | nil => rfl
  | cons p rest ih =>
    by_cases hp : p.1 = s
    · simp [dictGet, hp] at h
    · simp only [dictGet, if_neg hp] at h
      simpa [dictGet, hp] using ih h

theorem dictGet_append_of_some (c d : List (ℕ × ℤ)) (s : ℕ) (w : ℤ)
    (h : dictGet c s = some w) : dictGet (c ++ d) s = some w := by
  induction c with
  | nil => simp [dictGet] at h
  | cons p rest ih =>
    by_cases hp : p.1 = s
    · simp only [dictGet, if_pos hp] at h ⊢
      simpa [List.cons_append, dictGet, hp] using h
    · simp only [dictGet, if_neg hp] at h
      simpa [dictGet, hp] using ih h

theorem dictGet_mapSet_ne (c : List (ℕ × ℤ)) (k : ℕ) (v : ℤ) (s : ℕ)
    (hs : s ≠ k) :
    dictGet (c.map (fun p => if p.1 = k then (k, v) else p)) s = dictGet c s := by
  induction c with
  | nil => rfl
  | cons p rest ih =>
    by_cases hp : p.1 = k
    · have hks : ¬ (k = s) := fun h => hs h.symm
      have hps : ¬ (p.1 = s) := fun h => hs (h.symm.trans hp)
      simp [dictGet, hp, hks, hps, ih]
    · by_cases hps : p.1 = s
      · simp only [List.map_cons, if_neg hp, dictGet, if_pos hps]
      · simp only [List.map_cons, if_neg hp, dictGet, if_neg hps, ih]

theorem dictGet_mapSet_self (c : List (ℕ × ℤ)) (k : ℕ) (v : ℤ)
    (hk : k ∈ c.map Prod.fst) :
    dictGet (c.map (fun p => if p.1 = k then (k, v) else p)) k = some v := by
  induction c with
  | nil => simp at hk
  | cons p rest ih =>
    by_cases hp : p.1 = k
    · simp [dictGet, hp]
    · simp only [List.map_cons, List.mem_cons] at hk
      rcases hk with hk | hk
      · exact absurd hk.symm hp
      · simp [dictGet, hp, ih hk]

theorem dictGet_dictSet (c : List (ℕ × ℤ)) (k : ℕ) (v : ℤ) (s : ℕ) :
    dictGet (dictSet c k v) s = if s = k then some v else dictGet c s := by
  by_cases hk : k ∈ c.map Prod.fst
  · simp only [dictSet, if_pos hk]
    by_cases hs : s = k
    · subst hs
      simp [dictGet_mapSet_self c s v hk]
    · simp [dictGet_mapSet_ne c k v s hs, hs]
  · simp only [dictSet, if_neg hk]
    by_cases hs : s = k
    · subst hs
      rw [dictGet_append_of_none c _ s (dictGet_none_of_not_mem c s hk)]
      simp [dictGet]
    · cases h : dictGet c s with
      | none =>
        rw [dictGet_append_of_none c _ s h]
        simp [dictGet, h, (Ne.symm hs : ¬ k = s), hs]
      | some w => rw [dictGet_append_of_some c _ s w h]; simp [hs, h]

theorem dictSet_keys_mem (c : List (ℕ × ℤ)) (k : ℕ) (v : ℤ)
    (hk : k ∈ c.map Prod.fst) :
    (dictSet c k v).map Prod.fst = c.map Prod.fst := by
  simp only [dictSet, if_pos hk, List.map_map]
  congr 1
  funext p
  by_cases hp : p.1 = k <;> simp [hp]

theorem dictSet_keys_not_mem (c : List (ℕ × ℤ)) (k : ℕ) (v : ℤ)
    (hk : k ∉ c.map Prod.fst) :
    (dictSet c k v).map Prod.fst = c.map Prod.fst ++ [k] := by
  simp [dictSet, hk]

theorem foldl_dictSet_dictGet (subs : List ℕ) (env : ℕ → ℤ)
    (c : List (ℕ × ℤ)) (s : ℕ) :
    dictGet (subs.foldl (fun acc x => dictSet acc x (env x)) c) s =
      if s ∈ subs then some (env s) else dictGet c s := by
  induction subs generalizing c with
  | nil => simp
  | cons a rest ih =>
    simp only [List.foldl_cons, ih, dictGet_dictSet, List.mem_cons]
    by_cases hs : s ∈ rest
    · simp [hs]
    · by_cases ha : s = a <;> simp [hs, ha]

theorem foldl_dictSet_keys (subs : List ℕ) (env : ℕ → ℤ)
    (c : List (ℕ × ℤ)) (hnd : subs.Nodup)
    (hdisj : ∀ s ∈ subs, s ∉ c.map Prod.fst) :
    (subs.foldl (fun acc x => dictSet acc x (env x)) c).map Prod.fst =
      c.map Prod.fst ++ subs := by
  induction subs generalizing c with
  | nil => simp
  | cons a rest ih =>
    simp only [List.foldl_cons]
    have ha : a ∉ c.map Prod.fst := hdisj a (List.mem_cons_self a rest)
    have hkeys := dictSet_keys_not_mem c a (env a) ha
    have hnd' : rest.Nodup := (List.nodup_cons.mp hnd).2
    have hmem : a ∉ rest := (List.nodup_cons.mp hnd).1
    have hdisj' : ∀ s ∈ rest, s ∉ (dictSet c a (env a)).map Prod.fst := by
      intro s hsr
      rw [hkeys]
      simp only [List.mem_append, List.mem_singleton, not_or]
      exact ⟨hdisj s (List.mem_cons_of_mem a hsr),
             fun h => hmem (h ▸ hsr)⟩
    rw [ih (dictSet c a (env a)) hnd' hdisj', hkeys, List.append_assoc]
    rfl

theorem applyPushes_keys (calc_readback : List (ℕ × ℤ) → ℤ)
    (ps : List (ℕ × ℤ)) (st : AggregateSignal)
    (hps : ∀ p ∈ ps, p.1 ∈ st.cache.map Prod.fst) :
    (applyPushes calc_readback ps st).cache.map Prod.fst =
      st.cache.map Prod.fst ∧
    (applyPushes calc_readback ps st).sub_signals = st.sub_signals := by
  induction ps generalizing st with
  | nil => exact ⟨rfl, rfl⟩
  | cons p rest ih =>
    have hp : p.1 ∈ st.cache.map Prod.fst := hps p (List.mem_cons_self p rest)
    have hkeys := dictSet_keys_mem st.cache p.1 p.2 hp
    have hnext : ∀ q ∈ rest,
        q.1 ∈ (insert_value calc_readback p.1 p.2 st).cache.map Prod.fst := by
      intro q hq
      simp only [insert_value, hkeys]
      exact hps q (List.mem_cons_of_mem p hq)
    have := ih (insert_value calc_readback p.1 p.2 st) hnext
    simp only [applyPushes, List.foldl_cons] at this ⊢
    rw [this.1, this.2]
    exact ⟨by simp [insert_value, hkeys], rfl⟩

theorem applyPushes_dictGet (calc_readback : List (ℕ × ℤ) → ℤ)
    (ps : List (ℕ × ℤ)) (st : AggregateSignal) (s : ℕ) :
    dictGet (applyPushes calc_readback ps st).cache s =
      match lastPush ps s with
      | some v => some v
      | none => dictGet st.cache s := by
  induction ps generalizing st with
  | nil => rfl
  | cons p rest ih =>
    simp only [applyPushes, List.foldl_cons] at ih ⊢
    rw [ih (insert_value calc_readback p.1 p.2 st)]
    simp only [insert_value, dictGet_dictSet]
    cases hrest : lastPush rest s with
    | some v => simp [lastPush, hrest]
    | none =>
      by_cases hp : p.1 = s
      · rw [if_pos hp.symm]
        simp [lastPush, hrest, hp]
      · have hsp : ¬ s = p.1 := fun h => hp h.symm
        simp [lastPush, hrest, hp, hsp]

theorem applyPushes_readback (calc_readback : List (ℕ × ℤ) → ℤ)
    (ps : List (ℕ × ℤ)) (st : AggregateSignal)
    (h : st.readback = some (calc_readback st.cache)) :
    (applyPushes calc_readback ps st).readback =
      some (calc_readback (applyPushes calc_readback ps st).cache) := by
  induction ps generalizing st with
  | nil => exact h
  | cons p rest ih =>
    simp only [applyPushes, List.foldl_cons] at ih ⊢
    exact ih (insert_value calc_readback p.1 p.2 st) rfl

/-- The scenario of claim C1: construct with the given sources, perform one
full get() against the remote values env, then apply a sequence of pushes. -/
def aggTrace (calc_readback : List (ℕ × ℤ) → ℤ) (env : ℕ → ℤ)
    (subs : List ℕ) (ps : List (ℕ × ℤ)) : AggregateSignal :=
  applyPushes calc_readback ps
    (AggregateSignal.get calc_readback env (mkAggregateSignal subs))

/-- C1: after a full get() and any sequence of pushes on the sources, the
readback equals the subclass calculation applied to the current cache, the
cache holds exactly one entry per source, and each source's cache entry is
its latest pushed value (or its value from the full get() if never
pushed). -/
theorem aggregateSignal_readback_matches_cache
    (calc_readback : List (ℕ × ℤ) → ℤ) (env : ℕ → ℤ)
    (subs : List ℕ) (ps : List (ℕ × ℤ)) (s : ℕ)
    (hnd : subs.Nodup) (hps : ∀ p ∈ ps, p.1 ∈ subs) (hs : s ∈ subs) :
    (aggTrace calc_readback env subs ps).readback =
      some (calc_readback (aggTrace calc_readback env subs ps).cache) ∧
    (aggTrace calc_readback env subs ps).cache.map Prod.fst = subs ∧
    dictGet (aggTrace calc_readback env subs ps).cache s =
      some ((lastPush ps s).getD (env s)) := by
  have hget_keys :
      (AggregateSignal.get calc_readback env (mkAggregateSignal subs)).cache.map
        Prod.fst = subs := by
    simp only [AggregateSignal.get, mkAggregateSignal]
    rw [foldl_dictSet_keys subs env [] hnd (by simp)]
    rfl
  have hps' : ∀ p ∈ ps, p.1 ∈
      (AggregateSignal.get calc_readback env (mkAggregateSignal subs)).cache.map
        Prod.fst := by
    intro p hp
    rw [hget_keys]
    exact hps p hp
  refine ⟨?_, ?_, ?_⟩
  · exact applyPushes_readback calc_readback ps _ rfl
  · show (applyPushes calc_readback ps _).cache.map Prod.fst = subs
    rw [(applyPushes_keys calc_readback ps _ hps').1, hget_keys]
  · show dictGet (applyPushes calc_readback ps _).cache s = _
    rw [applyPushes_dictGet]
    cases hlp : lastPush ps s with
    | some v => rfl
    | none =>
      simp only [AggregateSignal.get, mkAggregateSignal, Option.getD]
      rw [foldl_dictSet_dictGet subs env [] s]
      simp [hs]

/-- Witness for C1 at a concrete instance: sources [1, 2], env s = s,
one push (1, 5), readback calculation summing the cached values. -/
theorem aggregateSignal_readback_matches_cache_witness :
    (aggTrace (fun c => (c.map Prod.snd).sum) (fun s => (s : ℤ)) [1, 2]
        [(1, 5)]).readback =
      some ((fun c => (c.map Prod.snd).sum)
        (aggTrace (fun c => (c.map Prod.snd).sum) (fun s => (s : ℤ)) [1, 2]
          [(1, 5)]).cache) ∧
    (aggTrace (fun c => (c.map Prod.snd).sum) (fun s => (s : ℤ)) [1, 2]
        [(1, 5)]).cache.map Prod.fst = [1, 2] ∧
    dictGet (aggTrace (fun c => (c.map Prod.snd).sum) (fun s => (s : ℤ)) [1, 2]
        [(1, 5)]).cache 1 =
      some ((lastPush [(1, 5)] 1).getD ((1 : ℕ) : ℤ)) :=
  aggregateSignal_readback_matches_cache
    (fun c => (c.map Prod.snd).sum) (fun s => (s : ℤ)) [1, 2] [(1, 5)] 1
    (by decide) (by decide) (by decide)

/-! ### AggregateSignal.subscribe -/

/-- Bookkeeping around AggregateSignal.subscribe: the registered callbacks
on the signal itself, the subscriptions made on the source signals (with
multiplicity, in order), the number of full get() reads performed, and the
_has_subscribed flag (initialized to False in __init__). -/
structure SubscribedAgg where
  agg : AggregateSignal
  has_subscribed : Bool
  callbacks : ℕ
  source_subs : List ℕ
  full_reads : ℕ
  deriving Repr, DecidableEq

/-- Initial subscription state right after __init__. -/
def mkSubscribedAgg (subs : List ℕ) : SubscribedAgg :=
  { agg := mkAggregateSignal subs, has_subscribed := false,
    callbacks := 0, source_subs := [], full_reads := 0 }

/-- AggregateSignal.subscribe: register the callback via the superclass,
then, when the event type is None or SUB_VALUE and _has_subscribed is
false, subscribe _run_sub_value to every source and perform one full
get().  Note the code never assigns _has_subscribed. -/
def AggregateSignal.subscribe (calc_readback : List (ℕ × ℤ) → ℤ)
    (env : ℕ → ℤ) (event_type : Option String) (st : SubscribedAgg) :
    SubscribedAgg :=
  let st := { st with callbacks := st.callbacks + 1 }
  if (event_type = none ∨ event_type = some "value") ∧
      st.has_subscribed = false then
    { st with
      agg := AggregateSignal.get calc_readback env st.agg,
      source_subs := st.source_subs ++ st.agg.sub_signals,
      full_reads := st.full_reads + 1 }
  else
    st

/-- C5 (code bug): subscribing twice to the VALUE event of an
AggregateSignal with sources [1, 2] performs a second full read and
re-subscribes both sources (duplicate handler subscriptions), because
_has_subscribed is never set to True.  The claim says the second
subscription reuses the existing subscriptions and triggers no additional
full read. -/
theorem aggregateSignal_second_subscribe_rereads :
    (AggregateSignal.subscribe (fun c => (c.map Prod.snd).sum) (fun s => (s : ℤ))
      (some "value")
      (AggregateSignal.subscribe (fun c => (c.map Prod.snd).sum)
        (fun s => (s : ℤ)) (some "value")
        (mkSubscribedAgg [1, 2]))).full_reads = 2 ∧
    (AggregateSignal.subscribe (fun c => (c.map Prod.snd).sum) (fun s => (s : ℤ))
      (some "value")
      (AggregateSignal.subscribe (fun c => (c.map Prod.snd).sum)
        (fun s => (s : ℤ)) (some "value")
        (mkSubscribedAgg [1, 2]))).source_subs = [1, 2, 1, 2] ∧
    (AggregateSignal.subscribe (fun c => (c.map Prod.snd).sum) (fun s => (s : ℤ))
      (some "value")
      (AggregateSignal.subscribe (fun c => (c.map Prod.snd).sum)
        (fun s => (s : ℤ)) (some "value")
        (mkSubscribedAgg [1, 2]))).has_subscribed = false := by
  refine ⟨?_, ?_, ?_⟩ <;> rfl

/-- C8: AggregateSignal.put always fails with the NotImplementedError for
every value and every state, so no updated state is ever produced and the
cache and readback are left untouched. -/
theorem aggregateSignal_put_not_supported (v : ℤ) (st : AggregateSignal) :
    AggregateSignal.put v st =
      Except.error "put should be overriden in the subclass" :=
  rfl

/-- C9: with the default emit-on-change configuration the push handler
emits a VALUE event exactly when the recomputed readback differs from the
previous readback; with the configuration disabled it emits on every
push. -/
theorem aggregateSignal_emit_only_on_change
    (calc_readback : List (ℕ × ℤ) → ℤ) (sig : ℕ) (v : ℤ)
    (st : AggregateSignal) :
    ((run_sub_value calc_readback true sig v st).2 ≠ none ↔
      (insert_value calc_readback sig v st).readback ≠ st.readback) ∧
    (run_sub_value calc_readback false sig v st).2 =
      some ((insert_value calc_readback sig v st).readback, st.readback) := by
  constructor
  · by_cases h : (insert_value calc_readback sig v st).readback = st.readback
    · simp [run_sub_value, h]
    · simp [run_sub_value, h]
  · simp [run_sub_value]

/-! ### AvgSignal -/

/-- State of an AvgSignal: the averages buffer size, the circular write
index, the numpy value buffer (NaN sentinels modelled as none), and the
last value published via self.put (None before the first push). -/
structure AvgSignal where
  avg : ℕ
  index : ℕ
  values : List (Option ℚ)
  published : Option ℚ
  deriving Repr, DecidableEq

/-- The averages setter: store the size, reset the write index and fill a
fresh buffer with NaN; the published value is untouched. -/
def set_averages (n : ℕ) (st : AvgSignal) : AvgSignal :=
  { st with avg := n, index := 0, values := List.replicate n none }

/-- AvgSignal.__init__ buffer state (the setter applied to a blank
signal). -/
def mkAvgSignal (n : ℕ) : AvgSignal :=
  set_averages n { avg := 0, index := 0, values := [], published := none }

/-- np.nanmean: the mean of the non-NaN slots. -/
def nanmean (values : List (Option ℚ)) : ℚ :=
  let xs := values.filterMap id
  xs.sum / (xs.length : ℚ)

/-- AvgSignal._update_avg: write the incoming value at the current index,
advance the index modulo the buffer length, and publish the NaN-skipping
mean.  Indexing an empty numpy buffer raises IndexError. -/
def update_avg (v : ℚ) (st : AvgSignal) : Except String AvgSignal :=
  if st.index < st.values.length then
    let values := st.values.set st.index (some v)
    Except.ok
      { st with
        values := values,
        index := (st.index + 1) % values.length,
        published := some (nanmean values) }
  else
    Except.error "IndexError"

/-- Deliver a sequence of pushed values in order. -/
def pushAll (vs : List ℚ) (st : AvgSignal) : Except String AvgSignal :=
  match vs with
  | [] => Except.ok st
  | v :: rest =>
    match update_avg v st with
    | Except.ok st' => pushAll rest st'
    | Except.error e => Except.error e

theorem pushAll_append (vs : List ℚ) (v : ℚ) (st : AvgSignal) :
    pushAll (vs ++ [v]) st =
      match pushAll vs st with
      | Except.ok st' => update_avg v st'
      | Except.error e => Except.error e := by
  induction vs generalizing st with
  | nil =>
    simp only [List.nil_append, pushAll]
    cases update_avg v st <;> rfl
  | cons w rest ih =>
    simp only [List.cons_append, pushAll]
    cases update_avg w st <;> simp [ih]

/-- Contents of the circular buffer after the values vs have been pushed
into a fresh buffer of size N: with k = vs.length and r = k % N, either
the buffer has not wrapped yet (k < N) or its slots split into the r values
of the current lap followed by the N - r oldest of the retained window. -/
def bufShape (N : ℕ) (vs : List ℚ) : List (Option ℚ) :=
  if vs.length < N then
    vs.map some ++ List.replicate (N - vs.length) none
  else
    ((vs.drop (vs.length - vs.length % N)).map some) ++
      (((vs.drop (vs.length - N)).take (N - vs.length % N)).map some)

/-- The buffer invariant maintained by update_avg. -/
def bufInv (N : ℕ) (vs : List ℚ) (st : AvgSignal) : Prop :=
  st.avg = N ∧ st.values.length = N ∧ st.index = vs.length % N ∧
  st.values = bufShape N vs

theorem bufInv_init (N : ℕ) (hN : 1 ≤ N) : bufInv N [] (mkAvgSignal N) := by
  refine ⟨rfl, by simp [mkAvgSignal, set_averages], ?_, ?_⟩
  · simp [mkAvgSignal, set_averages, Nat.zero_mod]
  · show List.replicate N none = bufShape N []
    simp only [bufShape, List.length_nil, Nat.sub_zero, List.map_nil,
      List.nil_append]
    rw [if_pos (Nat.lt_of_lt_of_le Nat.zero_lt_one hN)]

theorem bufInv_step (N : ℕ) (hN : 1 ≤ N) (vs : List ℚ) (v : ℚ)
    (st : AvgSignal) (h : bufInv N vs st) :
    ∃ st', update_avg v st = Except.ok st' ∧ bufInv N (vs ++ [v]) st' ∧
      st'.published = some (nanmean st'.values) := by
  obtain ⟨havg, hlen, hidx, hvals⟩ := h
  have hr : vs.length % N < N := Nat.mod_lt _ hN
  have hguard : st.index < st.values.length := by rw [hidx, hlen]; exact hr
  have hsetlen : (st.values.set st.index (some v)).length = N := by
    simp [hlen]
  have hstep : update_avg v st = Except.ok
      { st with
        values := st.values.set st.index (some v),
        index := (st.index + 1) % (st.values.set st.index (some v)).length,
        published := some (nanmean (st.values.set st.index (some v))) } := by
    simp [update_avg, hguard]
  refine ⟨_, hstep, ⟨havg, hsetlen, ?_, ?_⟩, rfl⟩
  · rw [hsetlen, hidx, List.length_append]
    simp [Nat.mod_add_mod]
  · show st.values.set st.index (some v) = bufShape N (vs ++ [v])
    rw [List.set_eq_take_cons_drop (some v) hguard]
    by_cases hk : vs.length < N
    · have hidx' : st.index = vs.length := by rw [hidx, Nat.mod_eq_of_lt hk]
      have hmaplen : (vs.map some).length = vs.length := by simp
      have htake : st.values.take st.index = vs.map some := by
        rw [hidx', hvals, bufShape, if_pos hk, List.take_left' hmaplen]
      have hdrop : st.values.drop (st.index + 1) =
          List.replicate (N - vs.length - 1) none := by
        rw [hidx', hvals, bufShape, if_pos hk, ← List.drop_drop,
          List.drop_left' hmaplen, List.drop_replicate]
      rw [htake, hdrop]
      by_cases hk1 : vs.length + 1 < N
      · rw [bufShape, if_pos (by simpa using hk1)]
        simp only [List.map_append, List.map_cons, List.map_nil,
          List.length_append, List.length_cons, List.length_nil,
          List.append_assoc, List.singleton_append]
        congr 2
      · have hk1' : vs.length + 1 = N := by omega
        have hlen1 : (vs ++ [v]).length = N := by simp [hk1']
        rw [bufShape, if_neg (by simp [hlen1])]
        rw [hlen1, Nat.mod_self, Nat.sub_zero, Nat.sub_self, List.drop_zero]
        have hd : (vs ++ [v]).drop N = [] := by
          rw [← hlen1]
          exact List.drop_length _
        have ht : (vs ++ [v]).take N = vs ++ [v] :=
          List.take_of_length_le (le_of_eq hlen1)
        rw [hd, ht, List.map_nil, List.nil_append, List.map_append]
        have h0 : N - vs.length - 1 = 0 := by omega
        simp [h0]
    · have hkN : N ≤ vs.length := le_of_not_lt hk
      have hrk : vs.length % N ≤ vs.length := Nat.mod_le vs.length N
      have hAlen : ((vs.drop (vs.length - vs.length % N)).map some).length =
          vs.length % N := by
        simp only [List.length_map, List.length_drop]
        omega
      have hAidx : ((vs.drop (vs.length - vs.length % N)).map some).length =
          st.index := by rw [hAlen, hidx]
      have htake : st.values.take st.index =
          (vs.drop (vs.length - vs.length % N)).map some := by
        rw [hvals, bufShape, if_neg hk, List.take_left' hAidx]
      have hdrop : st.values.drop (st.index + 1) =
          ((vs.drop (vs.length - N + 1)).take (N - vs.length % N - 1)).map
            some := by
        rw [hvals, bufShape, if_neg hk, ← List.drop_drop,
          List.drop_left' hAidx, ← List.map_drop, List.drop_take,
          List.drop_drop]
      rw [htake, hdrop]
      by_cases hr1 : vs.length % N + 1 < N
      · have hmod1 : (vs.length + 1) % N = vs.length % N + 1 := by
          rw [← Nat.mod_add_mod]
          exact Nat.mod_eq_of_lt hr1
        have hnotlt : ¬ (vs ++ [v]).length < N := by
          simp only [List.length_append, List.length_cons, List.length_nil]
          omega
        rw [bufShape, if_neg hnotlt]
        simp only [List.length_append, List.length_cons, List.length_nil]
        rw [hmod1]
        have h1 : vs.length + 1 - (vs.length % N + 1) = vs.length -
            vs.length % N := by omega
        have h2 : vs.length + 1 - N = vs.length - N + 1 := by omega
        rw [h1, h2,
          List.drop_append_of_le_length (by omega),
          List.drop_append_of_le_length (by omega),
          List.take_append_of_le_length (by simp; omega)]
        simp only [List.map_append, List.map_cons, List.map_nil,
          List.append_assoc, List.singleton_append]
        congr 3
      · have hr1' : vs.length % N + 1 = N := by omega
        have hmod0 : (vs.length + 1) % N = 0 := by
          rw [← Nat.mod_add_mod, hr1', Nat.mod_self]
        have hnotlt : ¬ (vs ++ [v]).length < N := by
          simp only [List.length_append, List.length_cons, List.length_nil]
          omega
        rw [bufShape, if_neg hnotlt]
        simp only [List.length_append, List.length_cons, List.length_nil]
        rw [hmod0, Nat.sub_zero, Nat.sub_zero]
        have hd : (vs ++ [v]).drop (vs.length + 1) = [] := by
          have hlen1 : (vs ++ [v]).length = vs.length + 1 := by simp
          rw [← hlen1]
          exact List.drop_length _
        have h2 : vs.length + 1 - N = vs.length - N + 1 := by omega
        have hdr : (vs ++ [v]).drop (vs.length - N + 1) =
            vs.drop (vs.length - N + 1) ++ [v] :=
          List.drop_append_of_le_length (by omega)
        have htk : (vs.drop (vs.length - N + 1) ++ [v]).take N =
            vs.drop (vs.length - N + 1) ++ [v] := by
          apply List.take_of_length_le
          simp only [List.length_append, List.length_drop, List.length_cons,
            List.length_nil]
          omega
        rw [hd, h2, hdr, htk, List.map_nil, List.nil_append, List.map_append]
        have h3 : N - vs.length % N - 1 = 0 := by omega
        have h4 : vs.length - vs.length % N = vs.length - N + 1 := by omega
        simp [h3, h4]

/-- After pushing any nonempty sequence of values into a fresh buffer of
size N ≥ 1, no error is raised, the buffer invariant holds and the
published value is the NaN-skipping mean of the buffer. -/
theorem pushAll_bufInv (N : ℕ) (hN : 1 ≤ N) (vs : List ℚ) :
    ∃ st, pushAll vs (mkAvgSignal N) = Except.ok st ∧ bufInv N vs st ∧
      (vs ≠ [] → st.published = some (nanmean st.values)) := by
  induction vs using List.reverseRecOn with
  | nil =>
    exact ⟨mkAvgSignal N, rfl, bufInv_init N hN, fun h => absurd rfl h⟩
  | append_singleton vs v ih =>
    obtain ⟨st, hpush, hinv, _⟩ := ih
    obtain ⟨st', hstep, hinv', hpub⟩ := bufInv_step N hN vs v st hinv
    refine ⟨st', ?_, hinv', fun _ => hpub⟩
    rw [pushAll_append, hpush]
    exact hstep

theorem filterMap_id_map_some (l : List ℚ) : (l.map some).filterMap id = l := by
  induction l with
  | nil => rfl
  | cons a t ih => simp [List.filterMap_cons, ih]

theorem filterMap_bufShape (N : ℕ) (hN : 1 ≤ N) (vs : List ℚ) :
    ((bufShape N vs).filterMap id).sum = (vs.drop (vs.length - N)).sum ∧
    ((bufShape N vs).filterMap id).length =
      (vs.drop (vs.length - N)).length := by
  by_cases hk : vs.length < N
  · have hfm : (bufShape N vs).filterMap id = vs := by
      rw [bufShape, if_pos hk, List.filterMap_append, filterMap_id_map_some]
      simp
    have h0 : vs.length - N = 0 := Nat.sub_eq_zero_of_le (le_of_lt hk)
    rw [hfm, h0, List.drop_zero]
    exact ⟨rfl, rfl⟩
  · have hkN : N ≤ vs.length := le_of_not_lt hk
    have hr : vs.length % N ≤ N := le_of_lt (Nat.mod_lt _ (by omega))
    have hfm : (bufShape N vs).filterMap id =
        vs.drop (vs.length - vs.length % N) ++
          (vs.drop (vs.length - N)).take (N - vs.length % N) := by
      rw [bufShape, if_neg hk, List.filterMap_append, filterMap_id_map_some,
        filterMap_id_map_some]
    have hA : vs.drop (vs.length - vs.length % N) =
        (vs.drop (vs.length - N)).drop (N - vs.length % N) := by
      rw [List.drop_drop]
      congr 1
      omega
    have hBA : (vs.drop (vs.length - N)).take (N - vs.length % N) ++
        vs.drop (vs.length - vs.length % N) = vs.drop (vs.length - N) := by
      rw [hA, List.take_append_drop]
    constructor
    · rw [hfm, List.sum_append, add_comm, ← List.sum_append, hBA]
    · rw [hfm, List.length_append, Nat.add_comm, ← List.length_append, hBA]

/-- C2: for buffer size N ≥ 1, after pushing the nonempty sequence vs the
published value is the arithmetic mean of the most recent min(|vs|, N)
pushed values (all of them while the buffer is not yet full). -/
theorem avgSignal_rolling_mean (N : ℕ) (vs : List ℚ) (hN : 1 ≤ N)
    (hvs : vs ≠ []) :
    ∃ st, pushAll vs (mkAvgSignal N) = Except.ok st ∧
      st.published = some ((vs.drop (vs.length - N)).sum /
        ((vs.drop (vs.length - N)).length : ℚ)) ∧
      (vs.drop (vs.length - N)).length = min vs.length N := by
  obtain ⟨st, hp, hinv, hpub⟩ := pushAll_bufInv N hN vs
  refine ⟨st, hp, ?_, ?_⟩
  · rw [hpub hvs, hinv.2.2.2]
    obtain ⟨hsum, hlen⟩ := filterMap_bufShape N hN vs
    simp only [nanmean]
    rw [hsum, hlen]
  · rw [List.length_drop]
    omega

/-- Witness for C2: buffer size 2, pushes [1, 2, 3]; the published value
is the mean of the last two pushes. -/
theorem avgSignal_rolling_mean_witness :
    ∃ st, pushAll [1, 2, 3] (mkAvgSignal 2) = Except.ok st ∧
      st.published = some ((([1, 2, 3] : List ℚ).drop
          (([1, 2, 3] : List ℚ).length - 2)).sum /
        (((([1, 2, 3] : List ℚ).drop
          (([1, 2, 3] : List ℚ).length - 2)).length : ℕ) : ℚ)) ∧
      (([1, 2, 3] : List ℚ).drop (([1, 2, 3] : List ℚ).length - 2)).length =
        min ([1, 2, 3] : List ℚ).length 2 :=
  avgSignal_rolling_mean 2 [1, 2, 3] (by decide) (by simp)

/-! ### AvgSignal connection behaviour -/

/-- Bookkeeping of AvgSignal._init_subs, the background thread spawned by
__init__: it blocks in raw_sig.wait_for_connection(), then subscribes
_update_avg and sets _con = True.  It completes exactly when the source
signal eventually connects; nothing in it inspects the buffer size. -/
structure AvgConn where
  subscribed : Bool
  con : Bool
  deriving Repr, DecidableEq

/-- Result of the _init_subs thread as a function of whether the source
ever reports connected. -/
def init_subs (source_eventually_connects : Bool) : AvgConn :=
  if source_eventually_connects then { subscribed := true, con := true }
  else { subscribed := false, con := false }

/-- AvgSignal.__init__: allocate the buffer via the averages setter and
spawn the _init_subs thread; the connected property reads _con. -/
def AvgSignal.construct (source_eventually_connects : Bool) (averages : ℕ) :
    AvgSignal × AvgConn :=
  (mkAvgSignal averages, init_subs source_eventually_connects)

/-- Counterexample to C6: an AvgSignal constructed with buffer size 0
whose source does connect reports connected = true (connection is
independent of the buffer size), and a push into the size-0 buffer raises
IndexError rather than silently doing nothing. -/
theorem avgSignal_zero_buffer_counterexample :
    (AvgSignal.construct true 0).2.con = true ∧
    update_avg 1 (mkAvgSignal 0) = Except.error "IndexError" :=
  ⟨rfl, rfl⟩

/-- C6 amended: if the source never reports connected, the connected
property stays false, the handler is never subscribed and nothing is ever
published, with no error; buffer size 0 does not keep connected false —
connected tracks only the source connection — and a push delivered to a
size-0 buffer raises IndexError. -/
theorem avgSignal_never_connected_amended (n : ℕ) (v : ℚ) :
    (AvgSignal.construct false n).2.con = false ∧
    (AvgSignal.construct false n).2.subscribed = false ∧
    (AvgSignal.construct false n).1.published = none ∧
    (∀ b : Bool, (AvgSignal.construct b 0).2.con = b) ∧
    update_avg v (mkAvgSignal 0) = Except.error "IndexError" := by
  refine ⟨rfl, rfl, rfl, fun b => ?_, rfl⟩
  cases b <;> rfl

/-! ### _OptionalEpicsSignal -/

/-- Observable state of the wrapped EpicsSignal (the remote channel): its
reported value and metadata, plus the log of values put to it through its
public put. -/
structure EpicsSignalState where
  connected : Bool
  value : ℤ
  read_access : Bool
  write_access : Bool
  precision : ℕ
  enum_strs : List String
  limits : ℤ × ℤ
  puts : List ℤ
  deriving Repr, DecidableEq

/-- State of an _OptionalEpicsSignal: the local Signal readback, the
permanent _saw_connection flag, whether _epics_value_update has been
subscribed, and the locally mirrored connection metadata. -/
structure OptionalEpicsSignal where
  readback : ℤ
  saw_connection : Bool
  value_subscribed : Bool
  meta_connected : Bool
  deriving Repr, DecidableEq

/-- _OptionalEpicsSignal.__init__: local fallback value, meta subscription
installed, _saw_connection = False. -/
def mkOptionalEpicsSignal (v : ℤ) : OptionalEpicsSignal :=
  { readback := v, saw_connection := false, value_subscribed := false,
    meta_connected := false }

/-- _OptionalEpicsSignal._epics_meta_update: mirror the metadata locally;
on the first event with connected = True, subscribe _epics_value_update
and set _saw_connection permanently. -/
def epics_meta_update (connected_kw : Bool) (st : OptionalEpicsSignal) :
    OptionalEpicsSignal :=
  let st := { st with meta_connected := connected_kw }
  if st.saw_connection = false ∧ connected_kw = true then
    { st with value_subscribed := true, saw_connection := true }
  else
    st

/-- _OptionalEpicsSignal._epics_value_update: force the remote's pushed
value into the local Signal (super().put with force=True). -/
def epics_value_update (remote_value : ℤ) (st : OptionalEpicsSignal) :
    OptionalEpicsSignal :=
  { st with readback := remote_value }

/-- _OptionalEpicsSignal.should_use_epics_signal. -/
def should_use_epics_signal (st : OptionalEpicsSignal) : Bool :=
  st.saw_connection

/-- Proxied get: the EpicsSignal's value once connected was seen, else the
local Signal readback. -/
def OptionalEpicsSignal.get (remote : EpicsSignalState)
    (st : OptionalEpicsSignal) : ℤ :=
  if should_use_epics_signal st then remote.value else st.readback

/-- Proxied put: write the EpicsSignal once connected was seen, else only
the local Signal readback. -/
def OptionalEpicsSignal.put (v : ℤ) (remote : EpicsSignalState)
    (st : OptionalEpicsSignal) : EpicsSignalState × OptionalEpicsSignal :=
  if should_use_epics_signal st then
    ({ remote with value := v, puts := remote.puts ++ [v] }, st)
  else
    (remote, { st with readback := v })

/-- Proxied connected property (pre-connection default True). -/
def OptionalEpicsSignal.connected (remote : EpicsSignalState)
    (st : OptionalEpicsSignal) : Bool :=
  if should_use_epics_signal st then remote.connected else true

/-- Proxied read_access property (pre-connection default True). -/
def OptionalEpicsSignal.read_access (remote : EpicsSignalState)
    (st : OptionalEpicsSignal) : Bool :=
  if should_use_epics_signal st then remote.read_access else true

/-- Proxied write_access property (pre-connection default True). -/
def OptionalEpicsSignal.write_access (remote : EpicsSignalState)
    (st : OptionalEpicsSignal) : Bool :=
  if should_use_epics_signal st then remote.write_access else true

/-- Proxied precision property (pre-connection default 4). -/
def OptionalEpicsSignal.precision (remote : EpicsSignalState)
    (st : OptionalEpicsSignal) : ℕ :=
  if should_use_epics_signal st then remote.precision else 4

/-- Proxied enum_strs property (pre-connection default empty). -/
def OptionalEpicsSignal.enum_strs (remote : EpicsSignalState)
    (st : OptionalEpicsSignal) : List String :=
  if should_use_epics_signal st then remote.enum_strs else []

/-- Proxied limits property (pre-connection default (0, 0)). -/
def OptionalEpicsSignal.limits (remote : EpicsSignalState)
    (st : OptionalEpicsSignal) : ℤ × ℤ :=
  if should_use_epics_signal st then remote.limits else (0, 0)

/-- Which backing object the proxied methods (describe, read,
wait_for_connection, ...) dispatch to. -/
inductive ProxyOwner
  | epics
  | local_signal
  deriving Repr, DecidableEq

/-- The owner selected by _proxy_method for every proxied method. -/
def method_selector (st : OptionalEpicsSignal) : ProxyOwner :=
  if should_use_epics_signal st then ProxyOwner.epics
  else ProxyOwner.local_signal

/-- Deliver a sequence of metadata events (their connected flags) in
order. -/
def applyMetas (ms : List Bool) (st : OptionalEpicsSignal) :
    OptionalEpicsSignal :=
  ms.foldl (fun s m => epics_meta_update m s) st

/-- The state of an _OptionalEpicsSignal with local fallback value v₀
after an arbitrary sequence of metadata events from the remote. -/
def optTrace (v₀ : ℤ) (ms : List Bool) : OptionalEpicsSignal :=
  applyMetas ms (mkOptionalEpicsSignal v₀)

theorem applyMetas_saw (ms : List Bool) (st : OptionalEpicsSignal) :
    (applyMetas ms st).saw_connection = (st.saw_connection || ms.any id) := by
  induction ms generalizing st with
  | nil => simp [applyMetas]
  | cons m rest ih =>
    simp only [applyMetas, List.foldl_cons] at ih ⊢
    rw [ih]
    cases hsaw : st.saw_connection <;> cases m <;>
      simp [epics_meta_update, hsaw]

theorem applyMetas_readback (ms : List Bool) (st : OptionalEpicsSignal) :
    (applyMetas ms st).readback = st.readback := by
  induction ms generalizing st with
  | nil => rfl
  | cons m rest ih =>
    simp only [applyMetas, List.foldl_cons] at ih ⊢
    rw [ih]
    by_cases h : st.saw_connection = false ∧ m = true <;>
      simp [epics_meta_update, h]

/-- C3: before any connected metadata event every proxied operation uses
the local fallback (get returns the fallback value and the read-only
properties report the fixed defaults); as soon as any event in the trace
reported connected, everything routes to the remote channel permanently,
whatever the remote's current connection state is. -/
theorem optionalEpicsSignal_routing (v₀ : ℤ) (ms : List Bool)
    (remote : EpicsSignalState) :
    (optTrace v₀ ms).saw_connection = ms.any id ∧
    OptionalEpicsSignal.get remote (optTrace v₀ ms) =
      (if ms.any id then remote.value else v₀) ∧
    OptionalEpicsSignal.connected remote (optTrace v₀ ms) =
      (if ms.any id then remote.connected else true) ∧
    OptionalEpicsSignal.read_access remote (optTrace v₀ ms) =
      (if ms.any id then remote.read_access else true) ∧
    OptionalEpicsSignal.write_access remote (optTrace v₀ ms) =
      (if ms.any id then remote.write_access else true) ∧
    OptionalEpicsSignal.precision remote (optTrace v₀ ms) =
      (if ms.any id then remote.precision else 4) ∧
    OptionalEpicsSignal.enum_strs remote (optTrace v₀ ms) =
      (if ms.any id then remote.enum_strs else []) ∧
    OptionalEpicsSignal.limits remote (optTrace v₀ ms) =
      (if ms.any id then remote.limits else (0, 0)) ∧
    method_selector (optTrace v₀ ms) =
      (if ms.any id then ProxyOwner.epics else ProxyOwner.local_signal) := by
  have hsaw : (optTrace v₀ ms).saw_connection = ms.any id := by
    rw [optTrace, applyMetas_saw]
    simp [mkOptionalEpicsSignal]
  have hrb : (optTrace v₀ ms).readback = v₀ :=
    applyMetas_readback ms (mkOptionalEpicsSignal v₀)
  refine ⟨hsaw, ?_, ?_, ?_, ?_, ?_, ?_, ?_, ?_⟩ <;>
    simp [OptionalEpicsSignal.get, OptionalEpicsSignal.connected,
      OptionalEpicsSignal.read_access, OptionalEpicsSignal.write_access,
      OptionalEpicsSignal.precision, OptionalEpicsSignal.enum_strs,
      OptionalEpicsSignal.limits, method_selector,
      should_use_epics_signal, hsaw, hrb]

/-- C10: a put before the first connection changes only the local
readback and is never forwarded to the remote channel — even after the
remote connects — and the first remote value push after connection
overwrites the locally put value via the forced local update. -/
theorem optionalEpicsSignal_preconnection_put_discarded
    (v₀ w u : ℤ) (remote : EpicsSignalState) :
    (OptionalEpicsSignal.put w remote (mkOptionalEpicsSignal v₀)).1 =
      remote ∧
    (OptionalEpicsSignal.put w remote (mkOptionalEpicsSignal v₀)).2.readback
      = w ∧
    (epics_value_update u (epics_meta_update true
      (OptionalEpicsSignal.put w remote
        (mkOptionalEpicsSignal v₀)).2)).readback = u ∧
    (epics_value_update u (epics_meta_update true
      (OptionalEpicsSignal.put w remote
        (mkOptionalEpicsSignal v₀)).2)).saw_connection = true ∧
    OptionalEpicsSignal.get remote (epics_value_update u
      (epics_meta_update true (OptionalEpicsSignal.put w remote
        (mkOptionalEpicsSignal v₀)).2)) = remote.value :=
  ⟨rfl, rfl, rfl, rfl, rfl⟩

/-! ### UnitConversionDerivedSignal -/

/-- Modelled from the spec: the size of a named length unit, for the unit
table used by convert_unit (imported from pcdsdevices.utils, which is not
among the sources here); unknown unit names have no size. -/
def unitScale : String → Option ℚ
  | "m" => some 1
  | "mm" => some (1 / 1000)
  | "um" => some (1 / 1000000)
  | _ => none

/-- Modelled from the spec: convert_unit (from pcdsdevices.utils, not among
the sources here) converts a value between two named units by the ratio of
the units' sizes — e.g. meters to millimeters multiplies by 1000 — and
fails with an UnknownUnits error when either unit is unknown, in
particular when original_units is still None. -/
def convert_unit (value : ℚ) (unit new_unit : Option String) :
    Except String ℚ :=
  match unit.bind unitScale, new_unit.bind unitScale with
  | some s1, some s2 => Except.ok (value * (s1 / s2))
  | _, _ => Except.error "UnknownUnits"

/-- Configuration of a UnitConversionDerivedSignal as stored by __init__:
the user-facing units, the original signal's units (possibly still
unknown) and the optional user offset in derived units.  Construction
itself never fails. -/
structure UnitConversionDerivedSignal where
  derived_units : String
  original_units : Option String
  user_offset : Option ℚ
  deriving Repr, DecidableEq

/-- UnitConversionDerivedSignal.forward: subtract the user offset when
set, then convert from derived to original units. -/
def forward (sig : UnitConversionDerivedSignal) (value : ℚ) :
    Except String ℚ :=
  let value :=
    match sig.user_offset with
    | some c => value - c
    | none => value
  convert_unit value (some sig.derived_units) sig.original_units

/-- UnitConversionDerivedSignal.inverse: convert from original to derived
units, then add the user offset when set. -/
def inverse (sig : UnitConversionDerivedSignal) (value : ℚ) :
    Except String ℚ :=
  match convert_unit value sig.original_units (some sig.derived_units) with
  | Except.ok derived_value =>
    Except.ok
      (match sig.user_offset with
       | some c => derived_value + c
       | none => derived_value)
  | Except.error e => Except.error e

theorem unitScale_ne_zero (u : String) (s : ℚ) (h : unitScale u = some s) :
    s ≠ 0 := by
  unfold unitScale at h
  split at h
  · injection h with h2
    rw [← h2]
    norm_num
  · injection h with h2
    rw [← h2]
    norm_num
  · injection h with h2
    rw [← h2]
    norm_num
  · exact Option.noConfusion h

/-- C4: with known units the forward/inverse pair is a bijection up to the
user offset — inverse after forward returns the input exactly (values are
rationals, so no floating-point tolerance is needed), forward with offset
c converts x - c from derived to original units, and inverse adds c after
converting from original to derived units. -/
theorem unitConversion_roundtrip_and_offset
    (du ou : String) (t s : ℚ) (hdu : unitScale du = some t)
    (hou : unitScale ou = some s) (off : Option ℚ) (c x y : ℚ) :
    (forward (UnitConversionDerivedSignal.mk du (some ou) off) x).bind
      (inverse (UnitConversionDerivedSignal.mk du (some ou) off)) =
      Except.ok x ∧
    forward (UnitConversionDerivedSignal.mk du (some ou) (some c)) x =
      convert_unit (x - c) (some du) (some ou) ∧
    inverse (UnitConversionDerivedSignal.mk du (some ou) (some c)) y =
      (convert_unit y (some ou) (some du)).map (fun d => d + c) := by
  have ht : t ≠ 0 := unitScale_ne_zero du t hdu
  have hs : s ≠ 0 := unitScale_ne_zero ou s hou
  refine ⟨?_, rfl, ?_⟩
  · cases off with
    | none =>
      simp only [forward, inverse, convert_unit, Option.some_bind, hdu, hou,
        Except.bind]
      congr 1
      field_simp
    | some c' =>
      simp only [forward, inverse, convert_unit, Option.some_bind, hdu, hou,
        Except.bind]
      congr 1
      field_simp
  · cases h : convert_unit y (some ou) (some du) with
    | ok d => simp [inverse, h, Except.map]
    | error e => simp [inverse, h, Except.map]

/-- Witness for C4: millimeters to meters with user offset 100 at input
x = 2, y = 3. -/
theorem unitConversion_roundtrip_and_offset_witness :
    (forward (UnitConversionDerivedSignal.mk "mm" (some "m")
        (some 100)) 2).bind
      (inverse (UnitConversionDerivedSignal.mk "mm" (some "m")
        (some 100))) = Except.ok 2 ∧
    forward (UnitConversionDerivedSignal.mk "mm" (some "m") (some 100)) 2 =
      convert_unit (2 - 100) (some "mm") (some "m") ∧
    inverse (UnitConversionDerivedSignal.mk "mm" (some "m") (some 100)) 3 =
      (convert_unit 3 (some "m") (some "mm")).map (fun d => d + 100) :=
  unitConversion_roundtrip_and_offset "mm" "m" (1 / 1000) 1 rfl rfl
    (some 100) 100 2 3

/-- C7: with original_units still unknown, construction succeeds (it
merely stores the configuration) and both conversion directions fail with
the UnknownUnits error instead of passing the value through. -/
theorem unitConversion_unknown_units_error (du : String) (off : Option ℚ)
    (x y : ℚ) :
    (UnitConversionDerivedSignal.mk du none off).original_units = none ∧
    forward (UnitConversionDerivedSignal.mk du none off) x =
      Except.error "UnknownUnits" ∧
    inverse (UnitConversionDerivedSignal.mk du none off) y =
      Except.error "UnknownUnits" := by
  refine ⟨rfl, ?_, ?_⟩
  · unfold forward convert_unit
    cases h : unitScale du <;> simp [h]
  · unfold inverse convert_unit
    cases h : unitScale du <;> simp [h]

end Pcds
